import Mathlib

/-!
Shallow embedding of the Go-LoadBalancer forwarding engine
(`src/Go-LoadBalancer/backend.go`, `serverpool.go`, `loadbalancer.go`).

Modelling conventions:
* Go `int64` / `int` counters are modelled as `Int`; the round-robin
  `uint64` counter wraps explicitly modulo `2 ^ 64`.
* `time.Time` instants and `time.Duration` values are modelled as `Int`;
  `time.Since(t)` at the current instant `now` is `now - t`.
* Go methods that write fields under a mutex become pure state-passing
  functions `Backend → Backend` (or `Backend → Bool × Backend` when they
  also return a value).  The sequential model corresponds to executions in
  which the operations of interest do not interleave, which is what the
  claims about the breaker/selection logic quantify over.
* The Go `map[*Backend]int` of the weighted algorithm is modelled as a
  total function `Nat → Int` keyed by a backend identity `id` (distinct
  Go pointers become distinct `id`s); a missing key reads as `0`, which
  coincides with the source's "initialize to 0 if not exists" loop.
-/

namespace LB

/-- One backend (`Backend` in `backend.go`): origin identity, weight,
liveness flag, in-flight connection count and circuit-breaker state. -/
structure Backend where
  id : Nat
  weight : Int
  alive : Bool
  connections : Int
  consecutiveErrors : Int
  lastErrorTime : Int
  circuitOpen : Bool
  maxConsecutiveErrors : Int
  circuitTimeout : Int
  deriving DecidableEq, Repr

namespace Backend

/-- `Backend.SetAlive` (backend.go line 32). -/
def setAlive (alive : Bool) (b : Backend) : Backend :=
  { b with alive := alive }

/-- `Backend.IsAlive` (backend.go line 39). -/
def isAlive (b : Backend) : Bool :=
  b.alive

/-- `Backend.IsCircuitOpen` (backend.go lines 47-61): if the stored flag is
set and more than `circuitTimeout` has passed since `lastErrorTime`, reset
the breaker (`circuitOpen ← false`, `consecutiveErrors ← 0`) and return
`false`; otherwise return the stored flag.  The returned pair is
(returned boolean, post-state). -/
def isCircuitOpen (now : Int) (b : Backend) : Bool × Backend :=
  if b.circuitOpen then
    if now - b.lastErrorTime > b.circuitTimeout then
      (false, { b with circuitOpen := false, consecutiveErrors := 0 })
    else
      (true, b)
  else
    (false, b)

/-- `Backend.IsAvailable` (backend.go lines 64-66):
`IsAlive() && !IsCircuitOpen()`.  Go's `&&` short-circuits, so the
circuit check (and its lazy reset) runs only when the backend is alive. -/
def isAvailable (now : Int) (b : Backend) : Bool × Backend :=
  if b.isAlive then
    let r := isCircuitOpen now b
    (!r.1, r.2)
  else
    (false, b)

/-- `Backend.RecordSuccess` (backend.go lines 69-74). -/
def recordSuccess (b : Backend) : Backend :=
  { b with consecutiveErrors := 0, circuitOpen := false }

/-- `Backend.RecordError` (backend.go lines 77-87): increment
`consecutiveErrors`, stamp `lastErrorTime`, and open the circuit when the
incremented count reaches `maxConsecutiveErrors`. -/
def recordError (now : Int) (b : Backend) : Backend :=
  let errors := b.consecutiveErrors + 1
  { b with
    consecutiveErrors := errors
    lastErrorTime := now
    circuitOpen := if errors ≥ b.maxConsecutiveErrors then true else b.circuitOpen }

/-- `Backend.GetConsecutiveErrors` (backend.go line 90). -/
def getConsecutiveErrors (b : Backend) : Int :=
  b.consecutiveErrors

/-- `Backend.AddConnection` (backend.go line 95). -/
def addConnection (b : Backend) : Backend :=
  { b with connections := b.connections + 1 }

/-- `Backend.RemoveConnection` (backend.go line 100). -/
def removeConnection (b : Backend) : Backend :=
  { b with connections := b.connections - 1 }

/-- `Backend.GetConnections` (backend.go line 105). -/
def getConnections (b : Backend) : Int :=
  b.connections

/-- A sequence of `RecordError` calls at the given instants, with no
intervening success (left fold, earliest call first). -/
def recordErrorSeq (b : Backend) : List Int → Backend
  | [] => b
  | t :: ts => recordErrorSeq (recordError t b) ts

end Backend

/-! ## Selection algorithms (`backend.go`, second section: algorithms) -/

/-- Weight coercion inside `WeightedRoundRobinAlgorithm.NextBackend`:
`if weight <= 0 { weight = 1 }`. -/
def effWeight (w : Int) : Int :=
  if w ≤ 0 then 1 else w

/-- `getAliveBackends` (algorithms file): keep the backends whose
`IsAlive()` holds. -/
def getAliveBackends (backends : List Backend) : List Backend :=
  backends.filter (·.isAlive)

/-- `RoundRobinAlgorithm.NextBackend`: atomically increment the `uint64`
counter (wrapping modulo `2 ^ 64`) and index the alive list with
`(next - 1) mod len`.  Returns the choice and the new counter. -/
def rrNextBackend (current : Nat) (backends : List Backend) :
    Option Backend × Nat :=
  let alive := getAliveBackends backends
  if h : alive.length = 0 then
    (none, current)
  else
    let next := (current + 1) % 2 ^ 64
    let idx := ((next + (2 ^ 64 - 1)) % 2 ^ 64) % alive.length
    (some (alive.get ⟨idx, Nat.mod_lt _ (Nat.pos_of_ne_zero h)⟩), next)

/-- The body of the `for _, backend := range alive` loop in
`WeightedRoundRobinAlgorithm.NextBackend`: accumulates `totalWeight`,
adds each candidate's effective weight to its current weight, and tracks
the running maximum together with the selected backend
(`maxWeight` starts at `-1`, `selected` at `nil`). -/
def wrrLoop (l : List Backend) (cw : Nat → Int) (total maxW : Int)
    (sel : Option Backend) : (Nat → Int) × Int × Int × Option Backend :=
  match l with
  | [] => (cw, total, maxW, sel)
  | b :: rest =>
    let ew := effWeight b.weight
    let v := cw b.id + ew
    let cw' := fun id => if id = b.id then v else cw id
    if v > maxW then
      wrrLoop rest cw' (total + ew) v (some b)
    else
      wrrLoop rest cw' (total + ew) maxW sel

/-- `WeightedRoundRobinAlgorithm.NextBackend`: filter to alive backends,
run the accumulation/selection loop, and subtract `totalWeight` from the
selected backend's current weight (when one was selected). -/
def wrrNextBackend (cw : Nat → Int) (backends : List Backend) :
    Option Backend × (Nat → Int) :=
  let alive := getAliveBackends backends
  if alive.isEmpty then
    (none, cw)
  else
    let res := wrrLoop alive cw 0 (-1) none
    match res.2.2.2 with
    | some s =>
      (some s, fun id => if id = s.id then res.1 s.id - res.2.1 else res.1 id)
    | none => (none, res.1)

/-- `LeastConnectionsAlgorithm.NextBackend`: scan the list, skipping
non-alive backends; `minConnections` starts at `-1`, and a backend is
taken when `minConnections == -1 || connections < minConnections`. -/
def lcLoop (l : List Backend) (minConn : Int) (sel : Option Backend) :
    Option Backend :=
  match l with
  | [] => sel
  | b :: rest =>
    if b.isAlive then
      if minConn = -1 ∨ b.getConnections < minConn then
        lcLoop rest b.getConnections (some b)
      else
        lcLoop rest minConn sel
    else
      lcLoop rest minConn sel

/-- `LeastConnectionsAlgorithm.NextBackend` entry point. -/
def lcNextBackend (backends : List Backend) : Option Backend :=
  lcLoop backends (-1) none

/-- The state of the configured `LoadBalancingAlgorithm` instance. -/
inductive Algorithm where
  | roundRobin (current : Nat)
  | weighted (currentWeights : Nat → Int)
  | leastConnections
  deriving Inhabited

/-- Dispatch of `algorithm.NextBackend(backends)`, returning the choice
and the algorithm's updated internal state. -/
def Algorithm.nextBackend (a : Algorithm) (backends : List Backend) :
    Option Backend × Algorithm :=
  match a with
  | .roundRobin current =>
    let (b, current') := rrNextBackend current backends
    (b, .roundRobin current')
  | .weighted cw =>
    let (b, cw') := wrrNextBackend cw backends
    (b, .weighted cw')
  | .leastConnections => (lcNextBackend backends, .leastConnections)

/-! ## Server pool (`serverpool.go`) -/

/-- `ServerPool`: the ordered backend list plus the algorithm instance. -/
structure Pool where
  backends : List Backend
  algorithm : Algorithm

/-- The filter loop of `ServerPool.NextAvailablePeer` (serverpool.go
lines 73-86): test `IsAvailable()` on each backend in order, collecting
the available ones.  `IsAvailable` can lazily reset an expired breaker,
so the fold also returns the updated backend list (same order). -/
def availableFilter (now : Int) : List Backend → List Backend × List Backend
  | [] => ([], [])
  | b :: rest =>
    let r := b.isAvailable now
    let fr := availableFilter now rest
    (if r.1 then r.2 :: fr.1 else fr.1, r.2 :: fr.2)

/-- `ServerPool.NextAvailablePeer` (serverpool.go lines 63-120): snapshot
the list, filter to available backends, return `nil` when none is
available, and otherwise delegate to the algorithm on the filtered
list. -/
def nextAvailablePeer (now : Int) (p : Pool) : Option Backend × Pool :=
  let fr := availableFilter now p.backends
  if fr.1.isEmpty then
    (none, { p with backends := fr.2 })
  else
    let ba := p.algorithm.nextBackend fr.1
    (ba.1, { backends := fr.2, algorithm := ba.2 })

/-! ## Request handler (`loadbalancer.go`, first section) -/

/-- `ResponseRecorder.WriteHeader` (loadbalancer.go lines 125-166): 5xx
statuses record an error, 2xx/3xx record a success, 4xx only logs. -/
def writeHeader (now statusCode : Int) (b : Backend) : Backend :=
  if 500 ≤ statusCode ∧ statusCode < 600 then
    b.recordError now
  else if 200 ≤ statusCode ∧ statusCode < 400 then
    b.recordSuccess
  else if 400 ≤ statusCode ∧ statusCode < 500 then
    b
  else
    b

/-- Iterated `WriteHeader` over a sequence of observed statuses. -/
def writeHeaderSeq (now : Int) (b : Backend) : List Int → Backend
  | [] => b
  | c :: cs => writeHeaderSeq now (writeHeader now c b) cs

/-- What one proxy transport attempt yields: either a transport error
(the `ErrorHandler` path) or a response whose status line is observed by
the `ResponseRecorder`. -/
inductive Outcome where
  | transportError
  | response (code : Int)

/-- Outcome of one full `loadBalance` entry: final pool, the number of
transport attempts performed, the ordered add/remove connection events
(`(id, true)` = `AddConnection`, `(id, false)` = `RemoveConnection`),
and the status delivered to the client. -/
structure LBResult where
  pool : Pool
  attempts : Nat
  trace : List (Nat × Bool)
  status : Int

/-- Apply a `Backend` update to every pool entry with the given identity
(Go mutates through the shared `*Backend` pointer). -/
def updatePool (bs : List Backend) (id : Nat) (f : Backend → Backend) :
    List Backend :=
  bs.map fun b => if b.id = id then f b else b

/-- `LoadBalancer.loadBalance` together with the wired
`createErrorHandler` callback (loadbalancer.go lines 43-102 and
168-244).  `retries` is the depth from the request context (default 0);
`oracle r` is the transport outcome of the attempt made at depth `r`;
`tm r` is the instant at which that attempt is handled.  On a transport
error the handler records the error and, while `retries <
maxRetries`, re-enters `loadBalance` at depth `retries + 1`; the
deferred `RemoveConnection` of the outer call runs after the nested call
returns. -/
def loadBalance (maxRetries : Nat) (oracle : Nat → Outcome) (tm : Nat → Int)
    (retries : Nat) (p : Pool) : LBResult :=
  match nextAvailablePeer (tm retries) p with
  | (none, p') => { pool := p', attempts := 0, trace := [], status := 503 }
  | (some peer, p') =>
    let p1 : Pool := { p' with backends := updatePool p'.backends peer.id .addConnection }
    match oracle retries with
    | .response code =>
      let p2 : Pool := { p1 with backends := updatePool p1.backends peer.id (writeHeader (tm retries) code) }
      let p3 : Pool := { p2 with backends := updatePool p2.backends peer.id .removeConnection }
      { pool := p3, attempts := 1
        trace := [(peer.id, true), (peer.id, false)], status := code }
    | .transportError =>
      let p2 : Pool := { p1 with backends := updatePool p1.backends peer.id (.recordError (tm retries)) }
      if hr : retries < maxRetries then
        let inner := loadBalance maxRetries oracle tm (retries + 1) p2
        let p4 : Pool := { inner.pool with backends := updatePool inner.pool.backends peer.id .removeConnection }
        { pool := p4, attempts := inner.attempts + 1
          trace := (peer.id, true) :: (inner.trace ++ [(peer.id, false)])
          status := inner.status }
      else
        let p3 : Pool := { p2 with backends := updatePool p2.backends peer.id .removeConnection }
        { pool := p3, attempts := 1
          trace := [(peer.id, true), (peer.id, false)], status := 503 }
termination_by maxRetries - retries
decreasing_by omega

/-! ## Health prober (`serverpool.go` lines 189-264 and 323-342) -/

/-- `isBackendAlive` (serverpool.go lines 323-342).  `healthResp` is the
status of `GET <url>/health` (`none` = the request failed), `rootResp`
likewise for `GET <url>/`.  The root fallback is attempted only when the
health request *fails*; whichever request produced a response supplies
the status, and the backend counts as alive iff it is in `[200, 300)`. -/
def isBackendAlive (healthResp rootResp : Option Int) : Bool :=
  match healthResp with
  | some code => decide (200 ≤ code ∧ code < 300)
  | none =>
    match rootResp with
    | some code => decide (200 ≤ code ∧ code < 300)
    | none => false

/-- Modelled from the spec: §4.5 steps 2-3 describe the probe as falling
back to `GET <backend_url>/` when the health request *fails or its
status is non-2xx*, the backend being alive iff the final status is in
`[200, 300)`.  (The spec's wording of the fallback condition is what is
under test; the source's `isBackendAlive` is `isBackendAlive` above.) -/
def specIsBackendAlive (healthResp rootResp : Option Int) : Bool :=
  match healthResp with
  | some code =>
    if 200 ≤ code ∧ code < 300 then
      true
    else
      match rootResp with
      | some code2 => decide (200 ≤ code2 ∧ code2 < 300)
      | none => false
  | none =>
    match rootResp with
    | some code2 => decide (200 ≤ code2 ∧ code2 < 300)
    | none => false

/-- The status the source's probe bases its decision on: the health
response when one was obtained, otherwise the root response. -/
def probeFinalStatus (healthResp rootResp : Option Int) : Option Int :=
  match healthResp with
  | some code => some code
  | none => rootResp

/-- The per-backend body of `ServerPool.HealthCheck` (serverpool.go
lines 197-254): read the old circuit state (`IsCircuitOpen` may lazily
reset an expired breaker), probe, `SetAlive`, then the further logging
reads (`IsCircuitOpen` / `IsAvailable`), which cannot change the state
again at the same instant. -/
def healthCheckBackend (now : Int) (probe : Option Int × Option Int)
    (b : Backend) : Backend :=
  let b1 := (b.isCircuitOpen now).2
  let b2 := b1.setAlive (isBackendAlive probe.1 probe.2)
  let b3 := (b2.isCircuitOpen now).2
  let b4 := (b3.isCircuitOpen now).2
  let b5 := (b4.isAvailable now).2
  b5

/-- `ServerPool.HealthCheck`: probe every backend and update its
liveness flag; `probes id` gives the (health, root) responses observed
for the backend with that identity. -/
def healthCheck (now : Int) (probes : Nat → Option Int × Option Int)
    (bs : List Backend) : List Backend :=
  bs.map fun b => healthCheckBackend now (probes b.id) b

/-! ## Admin endpoints (`serverpool.go` `GetStats`,
`loadbalancer.go` `circuitBreakerStatus`) -/

/-- The per-backend reads performed by `ServerPool.GetStats`
(serverpool.go lines 280-313): `IsAlive`, `IsAvailable`, then three
`IsCircuitOpen` calls while building the status strings and JSON
fields.  `IsAvailable` / `IsCircuitOpen` may lazily reset an expired
breaker; everything else is a pure read. -/
def getStatsBackend (now : Int) (b : Backend) : Backend :=
  let b1 := (b.isAvailable now).2
  let b2 := (b1.isCircuitOpen now).2
  let b3 := (b2.isCircuitOpen now).2
  let b4 := (b3.isCircuitOpen now).2
  b4

/-- The backend list after serving `GetStats`. -/
def getStatsPool (now : Int) (bs : List Backend) : List Backend :=
  bs.map (getStatsBackend now)

/-- The `available_backends` count of `GetStats` (each backend's
`available` flag is the value its `IsAvailable` call returned). -/
def getStatsAvailableCount (now : Int) (bs : List Backend) : Nat :=
  (bs.filter fun b => (b.isAvailable now).1).length

/-- `pool_health_percentage` in `GetStats` (serverpool.go line 317):
`float64(availableCount) / float64(len(backends)) * 100`, with no guard
on the divisor. -/
def poolHealthPercentage (now : Int) (bs : List Backend) : ℚ :=
  (getStatsAvailableCount now bs : ℚ) / (bs.length : ℚ) * 100

/-- The per-backend reads performed by
`LoadBalancer.circuitBreakerStatus` (loadbalancer.go lines 301-321):
`IsAvailable` then `IsCircuitOpen` (plus pure reads). -/
def cbStatusBackend (now : Int) (b : Backend) : Backend :=
  let b1 := (b.isAvailable now).2
  let b2 := (b1.isCircuitOpen now).2
  b2

/-- The backend list after serving `/circuit-breakers`. -/
def cbStatusPool (now : Int) (bs : List Backend) : List Backend :=
  bs.map (cbStatusBackend now)

/-- `summary.health_percentage` in `circuitBreakerStatus`
(loadbalancer.go line 331):
`float64(availableBackends) / float64(totalBackends) * 100`, again with
no guard on the divisor. -/
def cbHealthPercentage (now : Int) (bs : List Backend) : ℚ :=
  (getStatsAvailableCount now bs : ℚ) / (bs.length : ℚ) * 100

/-! ## Concrete backends used by witnesses and counterexamples -/

/-- A freshly created healthy backend with a custom breaker threshold of
2 errors and a 30-unit circuit timeout
(`NewBackendWithCircuitConfig(url, 1, 2, 30s)`). -/
def freshBackend : Backend :=
  { id := 0, weight := 1, alive := true, connections := 0
    consecutiveErrors := 0, lastErrorTime := 0, circuitOpen := false
    maxConsecutiveErrors := 2, circuitTimeout := 30 }

/-- A backend whose breaker opened at instant 0 after 5 consecutive
errors (defaults: threshold 10 would need 10, here threshold 3). -/
def openBackend : Backend :=
  { id := 1, weight := 1, alive := true, connections := 0
    consecutiveErrors := 5, lastErrorTime := 0, circuitOpen := true
    maxConsecutiveErrors := 3, circuitTimeout := 30 }

/-! ## Basic facts about `recordError` sequences -/

theorem recordErrorSeq_consecutiveErrors (ts : List Int) :
    ∀ b : Backend,
      (b.recordErrorSeq ts).consecutiveErrors = b.consecutiveErrors + ts.length := by
  induction ts with
  | nil => intro b; simp [Backend.recordErrorSeq]
  | cons t ts ih =>
    intro b
    simp only [Backend.recordErrorSeq, ih, Backend.recordError, List.length_cons]
    push_cast
    ring

theorem recordErrorSeq_lastErrorTime (ts : List Int) :
    ∀ b : Backend,
      (b.recordErrorSeq ts).lastErrorTime = ts.getLastD b.lastErrorTime := by
  induction ts with
  | nil => intro b; simp [Backend.recordErrorSeq]
  | cons t ts ih =>
    intro b
    simp only [Backend.recordErrorSeq, ih, Backend.recordError]
    cases ts <;> simp [List.getLastD]

theorem recordErrorSeq_frame (ts : List Int) :
    ∀ b : Backend,
      (b.recordErrorSeq ts).alive = b.alive ∧
      (b.recordErrorSeq ts).maxConsecutiveErrors = b.maxConsecutiveErrors ∧
      (b.recordErrorSeq ts).circuitTimeout = b.circuitTimeout := by
  induction ts with
  | nil => intro b; simp [Backend.recordErrorSeq]
  | cons t ts ih =>
    intro b
    simpa [Backend.recordErrorSeq, Backend.recordError] using ih (b.recordError t)

theorem recordErrorSeq_opens (ts : List Int) :
    ∀ b : Backend, ts ≠ [] →
      b.maxConsecutiveErrors ≤ b.consecutiveErrors + ts.length →
      (b.recordErrorSeq ts).circuitOpen = true := by
  induction ts with
  | nil => intro b h; exact absurd rfl h
  | cons t ts ih =>
    intro b _ hth
    cases ts with
    | nil =>
      simp only [Backend.recordErrorSeq, Backend.recordError]
      simp only [List.length_cons, List.length_nil] at hth
      have : b.consecutiveErrors + 1 ≥ b.maxConsecutiveErrors := by push_cast at hth ⊢; omega
      simp [this]
    | cons t2 ts2 =>
      have := ih (b.recordError t)
      simp only [Backend.recordErrorSeq]
      apply this (by simp)
      simp only [Backend.recordError, List.length_cons] at hth ⊢
      push_cast at hth ⊢
      omega

/-- C2: after `k ≥ max_consecutive_errors` consecutive `RecordError`
calls (at instants `ts`, no intervening success), the breaker is open
and `IsAvailable` — checked at any instant not yet past the circuit
timeout measured from the last error — returns false. -/
theorem breaker_threshold (b : Backend) (ts : List Int) (now : Int)
    (h0 : 0 ≤ b.consecutiveErrors)
    (hmax : 1 ≤ b.maxConsecutiveErrors)
    (hk : b.maxConsecutiveErrors ≤ (ts.length : Int))
    (hnow : now - ts.getLastD b.lastErrorTime ≤ b.circuitTimeout) :
    (b.recordErrorSeq ts).circuitOpen = true ∧
    ((b.recordErrorSeq ts).isAvailable now).1 = false := by
  have hne : ts ≠ [] := by
    cases ts with
    | nil => simp at hk; omega
    | cons t ts => simp
  have hopen : (b.recordErrorSeq ts).circuitOpen = true :=
    recordErrorSeq_opens ts b hne (by omega)
  refine ⟨hopen, ?_⟩
  have hframe := recordErrorSeq_frame ts b
  have hlast := recordErrorSeq_lastErrorTime ts b
  have hle : ¬(now - (b.recordErrorSeq ts).lastErrorTime >
      (b.recordErrorSeq ts).circuitTimeout) := by
    rw [hlast, hframe.2.2]; omega
  unfold Backend.isAvailable Backend.isAlive Backend.isCircuitOpen
  cases ha : (b.recordErrorSeq ts).alive with
  | false => simp
  | true => simp [hopen, hle]

/-- Witness for `breaker_threshold`: a fresh backend with threshold 2,
two `RecordError` calls at instants 1 and 2, availability checked at
instant 5. -/
theorem breaker_threshold_witness :
    (freshBackend.recordErrorSeq [1, 2]).circuitOpen = true ∧
    ((freshBackend.recordErrorSeq [1, 2]).isAvailable 5).1 = false :=
  breaker_threshold freshBackend [1, 2] 5 (by decide) (by decide) (by decide)
    (by decide)

/-- C3: for a backend whose stored `circuitOpen` flag is set,
`IsCircuitOpen` called strictly more than `circuitTimeout` after
`lastErrorTime` resets the breaker (`circuitOpen ← false`,
`consecutiveErrors ← 0`) and returns false; at any earlier instant it
returns the stored flag `true` and leaves the backend unchanged. -/
theorem isCircuitOpen_timeout_spec (b : Backend) (now : Int)
    (h : b.circuitOpen = true) :
    (now - b.lastErrorTime > b.circuitTimeout →
      b.isCircuitOpen now =
        (false, { b with circuitOpen := false, consecutiveErrors := 0 })) ∧
    (¬(now - b.lastErrorTime > b.circuitTimeout) →
      b.isCircuitOpen now = (true, b)) := by
  constructor <;> intro h2 <;> simp [Backend.isCircuitOpen, h, h2]

/-- Witness for `isCircuitOpen_timeout_spec`: `openBackend` (opened at
instant 0, timeout 30) queried at instants 31 and 30. -/
theorem isCircuitOpen_timeout_spec_witness :
    openBackend.isCircuitOpen 31 =
      (false, { openBackend with circuitOpen := false, consecutiveErrors := 0 }) ∧
    openBackend.isCircuitOpen 30 = (true, openBackend) :=
  ⟨(isCircuitOpen_timeout_spec openBackend 31 rfl).1 (by decide),
   (isCircuitOpen_timeout_spec openBackend 30 rfl).2 (by decide)⟩

/-- C7: the status classification of `ResponseRecorder.WriteHeader`
records an error for every 5xx status, a success for every 2xx/3xx
status and nothing for a 4xx status; hence any sequence of 4xx
responses leaves the backend (in particular `consecutiveErrors` and
`circuitOpen`) entirely unchanged. -/
theorem writeHeader_classification (now : Int) (b : Backend) (c : Int)
    (codes : List Int) :
    (500 ≤ c ∧ c < 600 → writeHeader now c b = b.recordError now) ∧
    (200 ≤ c ∧ c < 400 → writeHeader now c b = b.recordSuccess) ∧
    (400 ≤ c ∧ c < 500 → writeHeader now c b = b) ∧
    ((∀ x ∈ codes, 400 ≤ x ∧ x < 500) → writeHeaderSeq now b codes = b) := by
  refine ⟨fun h => ?_, fun h => ?_, fun h => ?_, fun h => ?_⟩
  · simp [writeHeader, h]
  · rw [writeHeader, if_neg (by omega), if_pos h]
  · rw [writeHeader, if_neg (by omega), if_neg (by omega), if_pos h]
  · induction codes generalizing b with
    | nil => rfl
    | cons x xs ih =>
      have hx := h x (by simp)
      have hb : writeHeader now x b = b := by
        rw [writeHeader, if_neg (by omega), if_neg (by omega), if_pos hx]
      rw [writeHeaderSeq, hb]
      exact ih b fun y hy => h y (by simp [hy])

/-- Witness for `writeHeader_classification`: statuses 503, 204, 404 and
the 4xx run `[400, 418, 499]` on `freshBackend`. -/
theorem writeHeader_classification_witness :
    writeHeader 7 503 freshBackend = freshBackend.recordError 7 ∧
    writeHeader 7 204 freshBackend = freshBackend.recordSuccess ∧
    writeHeader 7 404 freshBackend = freshBackend ∧
    writeHeaderSeq 7 freshBackend [400, 418, 499] = freshBackend :=
  ⟨(writeHeader_classification 7 freshBackend 503 []).1 (by decide),
   (writeHeader_classification 7 freshBackend 204 []).2.1 (by decide),
   (writeHeader_classification 7 freshBackend 404 []).2.2.1 (by decide),
   (writeHeader_classification 7 freshBackend 404 [400, 418, 499]).2.2.2
     (by decide)⟩

/-- C10: both `pool_health_percentage` (`GetStats`) and the
`/circuit-breakers` summary `health_percentage` divide the available
count by the total backend count with no guard: the available count
never exceeds the total, for a non-empty pool the divisor is non-zero
and the percentage satisfies `pct * total = available * 100`, and for
the empty pool the divisor is zero. -/
theorem healthPercentage_divisor (now : Int) (bs : List Backend) :
    getStatsAvailableCount now bs ≤ bs.length ∧
    (bs ≠ [] →
      ((bs.length : ℚ) ≠ 0 ∧
       poolHealthPercentage now bs * (bs.length : ℚ) =
         (getStatsAvailableCount now bs : ℚ) * 100 ∧
       cbHealthPercentage now bs * (bs.length : ℚ) =
         (getStatsAvailableCount now bs : ℚ) * 100)) ∧
    (bs = [] → (bs.length : ℚ) = 0) := by
  refine ⟨?_, fun hne => ?_, fun he => by simp [he]⟩
  · exact List.length_filter_le _ _
  · have hlen0 : bs.length ≠ 0 := (List.length_pos.2 hne).ne'
    have hlen : (bs.length : ℚ) ≠ 0 := Nat.cast_ne_zero.2 hlen0
    refine ⟨hlen, ?_, ?_⟩
    · rw [poolHealthPercentage, div_mul_eq_mul_div, div_mul_cancel₀ _ hlen]
    · rw [cbHealthPercentage, div_mul_eq_mul_div, div_mul_cancel₀ _ hlen]

/-! ## Frame behaviour of the admin-endpoint reads -/

theorem isCircuitOpen_snd (now : Int) (b : Backend) :
    (b.isCircuitOpen now).2 =
      if b.circuitOpen = true ∧ now - b.lastErrorTime > b.circuitTimeout then
        { b with circuitOpen := false, consecutiveErrors := 0 }
      else b := by
  rw [Backend.isCircuitOpen]
  rcases hc : b.circuitOpen with _ | _
  · simp [hc]
  · by_cases ht : now - b.lastErrorTime > b.circuitTimeout
    · simp [hc, ht]
    · simp [hc, ht]

theorem isCircuitOpen_snd_idem (now : Int) (b : Backend) :
    (((b.isCircuitOpen now).2).isCircuitOpen now).2 = (b.isCircuitOpen now).2 := by
  rw [isCircuitOpen_snd now b, isCircuitOpen_snd]
  by_cases h : b.circuitOpen = true ∧ now - b.lastErrorTime > b.circuitTimeout
  · simp [h]
  · simp only [if_neg h, if_neg h]

theorem isAvailable_snd (now : Int) (b : Backend) :
    (b.isAvailable now).2 = if b.alive then (b.isCircuitOpen now).2 else b := by
  rw [Backend.isAvailable, Backend.isAlive]
  rcases b.alive <;> simp

theorem getStatsBackend_eq (now : Int) (b : Backend) :
    getStatsBackend now b =
      if b.circuitOpen = true ∧ now - b.lastErrorTime > b.circuitTimeout then
        { b with circuitOpen := false, consecutiveErrors := 0 }
      else b := by
  rw [getStatsBackend, isAvailable_snd]
  by_cases ha : b.alive = true
  · rw [if_pos ha, isCircuitOpen_snd_idem, isCircuitOpen_snd_idem,
      isCircuitOpen_snd_idem, isCircuitOpen_snd]
  · rw [if_neg ha, isCircuitOpen_snd_idem, isCircuitOpen_snd_idem,
      isCircuitOpen_snd]

theorem cbStatusBackend_eq (now : Int) (b : Backend) :
    cbStatusBackend now b = getStatsBackend now b := by
  rw [cbStatusBackend, getStatsBackend_eq, isAvailable_snd]
  by_cases ha : b.alive = true
  · rw [if_pos ha, isCircuitOpen_snd_idem, isCircuitOpen_snd]
  · rw [if_neg ha, isCircuitOpen_snd]

/-- C9 (amended): the admin endpoints (`/health` and `/stats` via
`GetStats`, `/circuit-breakers` via `circuitBreakerStatus`) never change
a backend's `alive`, `connections`, `weight`, identity or
`lastErrorTime`; `consecutive_errors` and `circuit_open` are also
unchanged *unless* the backend's breaker is open and its timeout has
expired at serving time, in which case the endpoint's `IsCircuitOpen` /
`IsAvailable` reads perform the lazy reset
(`circuit_open ← false`, `consecutive_errors ← 0`). -/
theorem adminEndpointsFrame (now : Int) (b : Backend) (bs : List Backend) :
    ((getStatsBackend now b).id = b.id ∧
     (getStatsBackend now b).alive = b.alive ∧
     (getStatsBackend now b).connections = b.connections ∧
     (getStatsBackend now b).weight = b.weight ∧
     (getStatsBackend now b).lastErrorTime = b.lastErrorTime) ∧
    cbStatusBackend now b = getStatsBackend now b ∧
    (¬(b.circuitOpen = true ∧ now - b.lastErrorTime > b.circuitTimeout) →
      getStatsBackend now b = b) ∧
    (b.circuitOpen = true ∧ now - b.lastErrorTime > b.circuitTimeout →
      getStatsBackend now b =
        { b with circuitOpen := false, consecutiveErrors := 0 }) ∧
    ((∀ x ∈ bs, ¬(x.circuitOpen = true ∧ now - x.lastErrorTime > x.circuitTimeout)) →
      getStatsPool now bs = bs ∧ cbStatusPool now bs = bs) := by
  have hb := getStatsBackend_eq now b
  refine ⟨?_, cbStatusBackend_eq now b, fun h => by rw [hb, if_neg h],
    fun h => by rw [hb, if_pos h], fun h => ?_⟩
  · rw [hb]; by_cases h : b.circuitOpen = true ∧ now - b.lastErrorTime > b.circuitTimeout
    · simp [h]
    · simp [h]
  · constructor
    · rw [getStatsPool]
      conv_rhs => rw [← List.map_id bs]
      refine List.map_congr_left fun x hx => ?_
      rw [getStatsBackend_eq, if_neg (h x hx)]
      rfl
    · rw [cbStatusPool]
      conv_rhs => rw [← List.map_id bs]
      refine List.map_congr_left fun x hx => ?_
      rw [cbStatusBackend_eq, getStatsBackend_eq, if_neg (h x hx)]
      rfl

/-- Witness for `adminEndpointsFrame`: `openBackend` (breaker opened at
instant 0, timeout 30) served at instant 10 (not yet expired) and at
instant 31 (expired); the pool `[freshBackend]` is untouched. -/
theorem adminEndpointsFrame_witness :
    getStatsBackend 10 openBackend = openBackend ∧
    getStatsBackend 31 openBackend =
      { openBackend with circuitOpen := false, consecutiveErrors := 0 } ∧
    getStatsPool 0 [freshBackend] = [freshBackend] :=
  ⟨(adminEndpointsFrame 10 openBackend []).2.2.1 (by decide),
   (adminEndpointsFrame 31 openBackend []).2.2.2.1 (by decide),
   ((adminEndpointsFrame 0 freshBackend [freshBackend]).2.2.2.2
     (by decide)).1⟩

/-- Counterexample to C9 as stated: serving `/stats` at instant 31 for
`openBackend` (breaker open since instant 0, timeout 30, 5 consecutive
errors) *does* mutate the backend: `consecutive_errors` drops from 5 to
0 and `circuit_open` from true to false.  (The state is reachable: open
a breaker, then let more than `circuit_timeout` pass with no traffic
before the admin request.) -/
theorem adminEndpointsMutate_cex :
    openBackend.consecutiveErrors = 5 ∧ openBackend.circuitOpen = true ∧
    (getStatsBackend 31 openBackend).consecutiveErrors = 0 ∧
    (getStatsBackend 31 openBackend).circuitOpen = false := by
  decide

/-! ## The health probe -/

theorem healthCheckBackend_alive (now : Int) (probe : Option Int × Option Int)
    (b : Backend) :
    (healthCheckBackend now probe b).alive = isBackendAlive probe.1 probe.2 := by
  have halive : ∀ x : Backend, ((x.isCircuitOpen now).2).alive = x.alive := by
    intro x; rw [isCircuitOpen_snd]; split <;> rfl
  have havail : ∀ x : Backend, ((x.isAvailable now).2).alive = x.alive := by
    intro x
    rw [isAvailable_snd]
    split
    · exact halive x
    · rfl
  rw [healthCheckBackend, havail, halive, halive, Backend.setAlive]

/-- C8 (amended): the probe decides from `GET <url>/health` when that
request produced any response at all (falling back to `GET <url>/` only
on a transport-level failure, *not* on a non-2xx status), and
`HealthCheck` marks each backend alive via `SetAlive` iff the status of
the request that produced a response is in `[200, 300)` (not alive when
neither request produced a response). -/
theorem healthProbeSemantics (now : Int)
    (probes : Nat → Option Int × Option Int) (bs : List Backend)
    (h r : Option Int) :
    (isBackendAlive h r = true ↔
      ∃ c, probeFinalStatus h r = some c ∧ 200 ≤ c ∧ c < 300) ∧
    (∀ c, h = some c → probeFinalStatus h r = h) ∧
    ((healthCheck now probes bs).map (·.alive) =
      bs.map fun b => isBackendAlive (probes b.id).1 (probes b.id).2) := by
  refine ⟨?_, ?_, ?_⟩
  · rcases h with _ | c
    · rcases r with _ | c2
      · simp [isBackendAlive, probeFinalStatus]
      · simp [isBackendAlive, probeFinalStatus]
    · simp [isBackendAlive, probeFinalStatus]
  · rintro c rfl; rfl
  · rw [healthCheck, List.map_map]
    exact List.map_congr_left fun b _ => healthCheckBackend_alive now _ b

/-- Witness for `healthProbeSemantics`: the health endpoint answered
204, so the root response (a 500) is ignored and the backend counts as
alive; `HealthCheck` on `[freshBackend]` with that probe marks it so. -/
theorem healthProbeSemantics_witness :
    probeFinalStatus (some 204) (some 500) = some 204 ∧
    isBackendAlive (some 204) (some 500) = true ∧
    (healthCheck 0 (fun _ => (some 204, some 500)) [freshBackend]).map
      (·.alive) = [true] := by
  have h := healthProbeSemantics 0 (fun _ => (some 204, some 500))
    [freshBackend] (some 204) (some 500)
  exact ⟨h.2.1 204 rfl, by decide, by simpa using h.2.2⟩

/-- Counterexample to C8 as stated: the health request *succeeds* with
status 500 and the root route would answer 200.  The claim's fallback
rule ("if the request fails or its status is non-2xx, fall back")
declares the backend alive; the source's `isBackendAlive` never issues
the fallback request (it only does so when the health request fails at
the transport level) and declares the backend dead. -/
theorem healthProbeFallback_cex :
    specIsBackendAlive (some 500) (some 200) = true ∧
    isBackendAlive (some 500) (some 200) = false := by
  decide

/-! ## Selection safety of `NextAvailablePeer` -/

theorem isAvailable_fst_true (now : Int) (b : Backend)
    (h : (b.isAvailable now).1 = true) :
    ((b.isAvailable now).2).alive = true ∧
    ((b.isAvailable now).2).circuitOpen = false := by
  have ha : b.alive = true := by
    by_contra ha
    rw [Backend.isAvailable, Backend.isAlive, if_neg ha] at h
    exact absurd h (by simp)
  have hopen : (b.isCircuitOpen now).1 = false := by
    rw [Backend.isAvailable, Backend.isAlive, if_pos ha] at h
    simpa using h
  rw [isAvailable_snd, if_pos ha, isCircuitOpen_snd]
  rw [Backend.isCircuitOpen] at hopen
  by_cases hc : b.circuitOpen = true
  · by_cases ht : now - b.lastErrorTime > b.circuitTimeout
    · simp [hc, ht, ha]
    · rw [if_pos hc, if_neg ht] at hopen
      exact absurd hopen (by simp)
  · simp [hc, ha]

theorem availableFilter_mem (now : Int) (bs : List Backend) :
    ∀ b ∈ (availableFilter now bs).1, b.alive = true ∧ b.circuitOpen = false := by
  induction bs with
  | nil => intro b h; simp [availableFilter] at h
  | cons x rest ih =>
    intro b hb
    rw [availableFilter] at hb
    by_cases hx : (x.isAvailable now).1 = true
    · rw [if_pos hx] at hb
      rcases List.mem_cons.1 hb with h | h
      · exact h ▸ isAvailable_fst_true now x hx
      · exact ih b h
    · rw [if_neg hx] at hb
      exact ih b hb

theorem rrNextBackend_mem (current : Nat) (bs : List Backend) (b : Backend)
    (h : (rrNextBackend current bs).1 = some b) : b ∈ bs := by
  rw [rrNextBackend] at h
  by_cases hlen : (getAliveBackends bs).length = 0
  · rw [dif_pos hlen] at h; exact absurd h (by simp)
  · rw [dif_neg hlen] at h
    simp only [Option.some.injEq] at h
    rw [← h]
    exact List.mem_of_mem_filter (List.get_mem _ _ _)

theorem rrNextBackend_some (current : Nat) (bs : List Backend)
    (hne : bs ≠ []) (halive : ∀ b ∈ bs, b.isAlive = true) :
    (rrNextBackend current bs).1.isSome := by
  rw [rrNextBackend]
  have hfl : getAliveBackends bs = bs := List.filter_eq_self.2 halive
  have hlen : (getAliveBackends bs).length ≠ 0 := by
    rw [hfl]
    exact (List.length_pos.2 hne).ne'
  rw [dif_neg hlen]
  rfl

theorem lcLoop_some_stays (l : List Backend) :
    ∀ (m : Int) (s : Backend), lcLoop l m (some s) ≠ none := by
  induction l with
  | nil => intro m s; simp [lcLoop]
  | cons b rest ih =>
    intro m s
    rw [lcLoop]
    split
    · split
      · exact ih _ _
      · exact ih _ _
    · exact ih _ _

theorem lcLoop_mem (l : List Backend) :
    ∀ (m : Int) (sel : Option Backend) (s : Backend),
      lcLoop l m sel = some s → sel = some s ∨ s ∈ l := by
  induction l with
  | nil => intro m sel s h; exact Or.inl h
  | cons b rest ih =>
    intro m sel s h
    rw [lcLoop] at h
    by_cases hb : b.isAlive = true
    · rw [if_pos hb] at h
      by_cases hm : m = -1 ∨ b.getConnections < m
      · rw [if_pos hm] at h
        rcases ih _ _ _ h with h2 | h2
        · exact Or.inr (Option.some_inj.1 h2 ▸ List.mem_cons_self _ _)
        · exact Or.inr (List.mem_cons_of_mem b h2)
      · rw [if_neg hm] at h
        rcases ih _ _ _ h with h2 | h2
        · exact Or.inl h2
        · exact Or.inr (List.mem_cons_of_mem b h2)
    · rw [if_neg hb] at h
      rcases ih _ _ _ h with h2 | h2
      · exact Or.inl h2
      · exact Or.inr (List.mem_cons_of_mem b h2)

theorem lcNextBackend_mem (bs : List Backend) (b : Backend)
    (h : lcNextBackend bs = some b) : b ∈ bs := by
  rcases lcLoop_mem bs (-1) none b h with h2 | h2
  · exact absurd h2 (by simp)
  · exact h2

theorem lcNextBackend_some (bs : List Backend) (hne : bs ≠ [])
    (halive : ∀ b ∈ bs, b.isAlive = true) : lcNextBackend bs ≠ none := by
  rw [lcNextBackend]
  cases bs with
  | nil => exact absurd rfl hne
  | cons b rest =>
    rw [lcLoop, if_pos (halive b (by simp)), if_pos (Or.inl rfl)]
    exact lcLoop_some_stays rest _ _

theorem wrrLoop_sel_mem (l : List Backend) :
    ∀ (cw : Nat → Int) (t m : Int) (sel : Option Backend) (s : Backend),
      (wrrLoop l cw t m sel).2.2.2 = some s → sel = some s ∨ s ∈ l := by
  induction l with
  | nil => intro cw t m sel s h; exact Or.inl h
  | cons b rest ih =>
    intro cw t m sel s h
    rw [wrrLoop] at h
    by_cases hv : cw b.id + effWeight b.weight > m
    · rw [if_pos hv] at h
      rcases ih _ _ _ _ _ h with h2 | h2
      · exact Or.inr (Option.some_inj.1 h2 ▸ List.mem_cons_self _ _)
      · exact Or.inr (List.mem_cons_of_mem b h2)
    · rw [if_neg hv] at h
      rcases ih _ _ _ _ _ h with h2 | h2
      · exact Or.inl h2
      · exact Or.inr (List.mem_cons_of_mem b h2)

theorem wrrNextBackend_mem (cw : Nat → Int) (bs : List Backend) (b : Backend)
    (h : (wrrNextBackend cw bs).1 = some b) : b ∈ bs := by
  rw [wrrNextBackend] at h
  by_cases he : (getAliveBackends bs).isEmpty
  · rw [if_pos he] at h; exact absurd h (by simp)
  · rw [if_neg he] at h
    simp only [] at h
    rcases hsel : (wrrLoop (getAliveBackends bs) cw 0 (-1) none).2.2.2 with _ | s
    · rw [hsel] at h; exact absurd h (by simp)
    · rw [hsel] at h
      simp only [Option.some.injEq] at h
      rcases wrrLoop_sel_mem (getAliveBackends bs) cw 0 (-1) none s hsel with h2 | h2
      · exact absurd h2 (by simp)
      · exact h ▸ List.mem_of_mem_filter h2

/-- C1 (amended): `NextAvailablePeer` never returns an unavailable
backend: every returned backend is a member of the `IsAvailable`-filtered
list and is alive with a closed breaker; if the filtered list is empty
the result is `none`.  Conversely, under the round-robin and
least-connections algorithms the result is `none` *only if* the filtered
list is empty; under the weighted algorithm the converse can fail (see
the counterexample), because `maxWeight` starts at `-1` and a candidate
whose incremented current weight is `≤ -1` is never selected. -/
theorem nextAvailablePeer_safety (now : Int) (p : Pool) :
    (∀ b : Backend, (nextAvailablePeer now p).1 = some b →
      b ∈ (availableFilter now p.backends).1 ∧
      b.alive = true ∧ b.circuitOpen = false) ∧
    ((availableFilter now p.backends).1 = [] →
      (nextAvailablePeer now p).1 = none) ∧
    (∀ c : Nat, p.algorithm = Algorithm.roundRobin c →
      ((nextAvailablePeer now p).1 = none ↔
        (availableFilter now p.backends).1 = [])) ∧
    (p.algorithm = Algorithm.leastConnections →
      ((nextAvailablePeer now p).1 = none ↔
        (availableFilter now p.backends).1 = [])) := by
  by_cases he : (availableFilter now p.backends).1.isEmpty
  · have hnone : (nextAvailablePeer now p).1 = none := by
      simp only [nextAvailablePeer]
      rw [if_pos he]
    have hemp : (availableFilter now p.backends).1 = [] :=
      List.isEmpty_iff.1 he
    exact ⟨fun b hb => absurd (hnone ▸ hb) (by simp),
      fun _ => hnone,
      fun c hc => by simp [hnone, hemp],
      fun hc => by simp [hnone, hemp]⟩
  · have hne : (availableFilter now p.backends).1 ≠ [] := by
      simpa [List.isEmpty_iff] using he
    have halive : ∀ b ∈ (availableFilter now p.backends).1, b.isAlive = true :=
      fun b hb => (availableFilter_mem now p.backends b hb).1
    have hres : (nextAvailablePeer now p).1 =
        (p.algorithm.nextBackend (availableFilter now p.backends).1).1 := by
      simp only [nextAvailablePeer]
      rw [if_neg he]
    refine ⟨fun b hb => ?_, fun hemp => absurd hemp hne, fun c hc => ?_, fun hc => ?_⟩
    · rw [hres] at hb
      have hmem : b ∈ (availableFilter now p.backends).1 := by
        rcases halg : p.algorithm with c | cw | _
        · rw [halg] at hb
          simp only [Algorithm.nextBackend] at hb
          exact rrNextBackend_mem c _ b hb
        · rw [halg] at hb
          simp only [Algorithm.nextBackend] at hb
          exact wrrNextBackend_mem cw _ b hb
        · rw [halg] at hb
          simp only [Algorithm.nextBackend] at hb
          exact lcNextBackend_mem _ b hb
      exact ⟨hmem, availableFilter_mem now p.backends b hmem⟩
    · rw [hres, hc]
      simp only [Algorithm.nextBackend]
      have := rrNextBackend_some c (availableFilter now p.backends).1 hne halive
      constructor
      · intro h
        rw [h] at this
        exact absurd this (by simp)
      · intro h
        exact absurd h hne
    · rw [hres, hc]
      simp only [Algorithm.nextBackend]
      have := lcNextBackend_some (availableFilter now p.backends).1 hne halive
      constructor
      · intro h
        exact absurd h this
      · intro h
        exact absurd h hne

/-- A two-backend pool running the weighted algorithm in a reachable
state: backends `A` (id 0, weight 1, alive) and `B` (id 1, weight 5,
just found dead by the prober), current weights `A ↦ -3`, `B ↦ 3` (the
exact weights after three picks of the weighted algorithm from its
initial all-zero state over `{A, B}`). -/
def wrrCexPool : Pool :=
  { backends :=
      [{ id := 0, weight := 1, alive := true, connections := 0
         consecutiveErrors := 0, lastErrorTime := 0, circuitOpen := false
         maxConsecutiveErrors := 10, circuitTimeout := 30 },
       { id := 1, weight := 5, alive := false, connections := 0
         consecutiveErrors := 0, lastErrorTime := 0, circuitOpen := false
         maxConsecutiveErrors := 10, circuitTimeout := 30 }]
    algorithm := .weighted fun i => if i = 0 then -3 else if i = 1 then 3 else 0 }

/-- Counterexample to C1 as stated: in `wrrCexPool` the
`IsAvailable`-filtered list is non-empty (backend `A` is available), yet
`NextAvailablePeer` returns `none` — the weighted algorithm's scan
starts `maxWeight` at `-1` and `A`'s incremented current weight `-2`
never exceeds it, so no backend is selected and the request is answered
503 despite an available backend. -/
theorem nextAvailablePeer_weighted_cex :
    (availableFilter 0 wrrCexPool.backends).1 ≠ [] ∧
    (nextAvailablePeer 0 wrrCexPool).1 = none := by
  constructor
  · decide
  · rfl

/-- A one-backend pool running round-robin, used by the selection
witness. -/
def rrWitnessPool : Pool :=
  { backends := [freshBackend], algorithm := Algorithm.roundRobin 0 }

/-- Witness for `nextAvailablePeer_safety`: a one-backend pool under
round-robin returns that backend, which is available. -/
theorem nextAvailablePeer_safety_witness :
    (nextAvailablePeer 0 rrWitnessPool).1 = some freshBackend ∧
    freshBackend ∈ (availableFilter 0 rrWitnessPool.backends).1 ∧
    freshBackend.alive = true ∧ freshBackend.circuitOpen = false := by
  have h := (nextAvailablePeer_safety 0 rrWitnessPool).1 freshBackend (by decide)
  exact ⟨by decide, h⟩

/-! ## Smooth weighted round-robin distribution -/

/-- `totalWeight` accumulated by one `WeightedRoundRobinAlgorithm`
call over a candidate list: the sum of the effective weights. -/
def totalEffWeight (bs : List Backend) : Int :=
  (bs.map fun b => effWeight b.weight).sum

/-- The algorithm's current-weight map after `m` consecutive
`NextBackend` calls over the fixed candidate list `bs`, starting from
the freshly-created algorithm (all current weights 0). -/
def wrrStates (bs : List Backend) : Nat → (Nat → Int)
  | 0 => fun _ => 0
  | m + 1 => (wrrNextBackend (wrrStates bs m) bs).2

/-- The backend returned by the `m`-th `NextBackend` call (0-based). -/
def wrrPick (bs : List Backend) (m : Nat) : Option Backend :=
  (wrrNextBackend (wrrStates bs m) bs).1

/-- How many of the first `m` calls selected backend `b`. -/
def wrrPickCount (bs : List Backend) (b : Backend) (m : Nat) : Nat :=
  ((Finset.range m).filter fun t => wrrPick bs t = some b).card

/-- How many calls in the window `[k, k + len)` selected backend `b`. -/
def wrrWindowCount (bs : List Backend) (b : Backend) (k len : Nat) : Nat :=
  ((Finset.Ico k (k + len)).filter fun t => wrrPick bs t = some b).card

/-- The max-scan part of the `WeightedRoundRobinAlgorithm.NextBackend`
loop in isolation, reading all current weights from the same map `cw`
(which is sound on candidate lists with pairwise-distinct identities,
since each entry's weight is bumped before the comparison and no other
entry's is read afterwards). -/
def scanSel (cw : Nat → Int) : List Backend → Int → Option Backend → Int × Option Backend
  | [], maxW, sel => (maxW, sel)
  | b :: rest, maxW, sel =>
    if cw b.id + effWeight b.weight > maxW then
      scanSel cw rest (cw b.id + effWeight b.weight) (some b)
    else
      scanSel cw rest maxW sel

theorem scanSel_congr (l : List Backend) :
    ∀ (cw1 cw2 : Nat → Int) (m : Int) (s : Option Backend),
      (∀ b ∈ l, cw1 b.id = cw2 b.id) →
      scanSel cw1 l m s = scanSel cw2 l m s := by
  induction l with
  | nil => intro cw1 cw2 m s h; rfl
  | cons b rest ih =>
    intro cw1 cw2 m s h
    rw [scanSel, scanSel, h b (by simp)]
    split
    · exact ih _ _ _ _ fun x hx => h x (by simp [hx])
    · exact ih _ _ _ _ fun x hx => h x (by simp [hx])

theorem wrrLoop_total (l : List Backend) :
    ∀ (cw : Nat → Int) (t m : Int) (sel : Option Backend),
      (wrrLoop l cw t m sel).2.1 = t + totalEffWeight l := by
  induction l with
  | nil => intro cw t m sel; simp [wrrLoop, totalEffWeight]
  | cons b rest ih =>
    intro cw t m sel
    rw [wrrLoop]
    split <;>
      · rw [ih]
        simp [totalEffWeight]
        ring

theorem wrrLoop_cw_off (l : List Backend) :
    ∀ (cw : Nat → Int) (t m : Int) (sel : Option Backend) (x : Nat),
      (∀ b ∈ l, b.id ≠ x) → (wrrLoop l cw t m sel).1 x = cw x := by
  induction l with
  | nil => intro cw t m sel x h; rfl
  | cons b rest ih =>
    intro cw t m sel x h
    rw [wrrLoop]
    have hbx : b.id ≠ x := h b (by simp)
    split <;>
      · rw [ih _ _ _ _ x fun c hc => h c (by simp [hc])]
        simp [Ne.symm hbx]

theorem wrrLoop_cw_mem (l : List Backend) :
    ∀ (cw : Nat → Int) (t m : Int) (sel : Option Backend),
      (l.map Backend.id).Nodup →
      ∀ b ∈ l, (wrrLoop l cw t m sel).1 b.id = cw b.id + effWeight b.weight := by
  induction l with
  | nil => intro cw t m sel _ b hb; simp at hb
  | cons x rest ih =>
    intro cw t m sel hnd b hb
    have hnotin : x.id ∉ rest.map Backend.id := (List.nodup_cons.1 hnd).1
    have hrest : (rest.map Backend.id).Nodup := (List.nodup_cons.1 hnd).2
    rcases List.mem_cons.1 hb with rfl | hbr
    · rw [wrrLoop]
      have hoff : ∀ c ∈ rest, c.id ≠ b.id := by
        intro c hc hcx
        exact hnotin (hcx ▸ List.mem_map_of_mem Backend.id hc)
      split <;>
        · rw [wrrLoop_cw_off rest _ _ _ _ b.id hoff]
          simp
    · rw [wrrLoop]
      have hxb : b.id ≠ x.id := by
        intro hbx
        exact hnotin (hbx ▸ List.mem_map_of_mem Backend.id hbr)
      split <;>
        · rw [ih _ _ _ _ hrest b hbr]
          simp [hxb]

theorem wrrLoop_scan (l : List Backend) :
    ∀ (cw : Nat → Int) (t m : Int) (sel : Option Backend),
      (l.map Backend.id).Nodup →
      ((wrrLoop l cw t m sel).2.2.1, (wrrLoop l cw t m sel).2.2.2) =
        scanSel cw l m sel := by
  induction l with
  | nil => intro cw t m sel _; rfl
  | cons b rest ih =>
    intro cw t m sel hnd
    have hnotin : b.id ∉ rest.map Backend.id := (List.nodup_cons.1 hnd).1
    have hrest : (rest.map Backend.id).Nodup := (List.nodup_cons.1 hnd).2
    have hcongr : ∀ c ∈ rest,
        (fun id => if id = b.id then cw b.id + effWeight b.weight else cw id) c.id
          = cw c.id := by
      intro c hc
      have : c.id ≠ b.id := by
        intro hcb
        exact hnotin (hcb ▸ List.mem_map_of_mem Backend.id hc)
      simp [this]
    rw [wrrLoop, scanSel]
    split
    · rw [ih _ _ _ _ hrest, scanSel_congr rest _ cw _ _ hcongr]
    · rw [ih _ _ _ _ hrest, scanSel_congr rest _ cw _ _ hcongr]

theorem scanSel_bound (l : List Backend) :
    ∀ (cw : Nat → Int) (m : Int) (s : Option Backend),
      m ≤ (scanSel cw l m s).1 ∧
      ∀ b ∈ l, cw b.id + effWeight b.weight ≤ (scanSel cw l m s).1 := by
  induction l with
  | nil => intro cw m s; exact ⟨le_refl m, by simp⟩
  | cons b rest ih =>
    intro cw m s
    rw [scanSel]
    by_cases hv : cw b.id + effWeight b.weight > m
    · rw [if_pos hv]
      refine ⟨le_trans (le_of_lt hv) (ih _ _ _).1, fun c hc => ?_⟩
      rcases List.mem_cons.1 hc with rfl | hcr
      · exact (ih _ _ _).1
      · exact (ih _ _ _).2 c hcr
    · rw [if_neg hv]
      refine ⟨(ih _ _ _).1, fun c hc => ?_⟩
      rcases List.mem_cons.1 hc with rfl | hcr
      · exact le_trans (not_lt.1 hv) (ih _ _ _).1
      · exact (ih _ _ _).2 c hcr

theorem scanSel_mem (l : List Backend) :
    ∀ (cw : Nat → Int) (m : Int) (s : Option Backend),
      ((scanSel cw l m s).1 = m ∧ (scanSel cw l m s).2 = s) ∨
      ∃ b ∈ l, (scanSel cw l m s).2 = some b ∧
        (scanSel cw l m s).1 = cw b.id + effWeight b.weight := by
  induction l with
  | nil => intro cw m s; exact Or.inl ⟨rfl, rfl⟩
  | cons b rest ih =>
    intro cw m s
    rw [scanSel]
    by_cases hv : cw b.id + effWeight b.weight > m
    · rw [if_pos hv]
      rcases ih cw (cw b.id + effWeight b.weight) (some b) with ⟨hm, hs⟩ | ⟨c, hc, hsel, hmax⟩
      · exact Or.inr ⟨b, by simp, hs, hm⟩
      · exact Or.inr ⟨c, by simp [hc], hsel, hmax⟩
    · rw [if_neg hv]
      rcases ih cw m s with h | ⟨c, hc, hsel, hmax⟩
      · exact Or.inl h
      · exact Or.inr ⟨c, by simp [hc], hsel, hmax⟩

theorem scanSel_some_stays (l : List Backend) :
    ∀ (cw : Nat → Int) (m : Int) (s : Backend),
      (scanSel cw l m (some s)).2 ≠ none := by
  induction l with
  | nil => intro cw m s; simp [scanSel]
  | cons b rest ih =>
    intro cw m s
    rw [scanSel]
    split
    · exact ih _ _ _
    · exact ih _ _ _

theorem scanSel_none (l : List Backend) :
    ∀ (cw : Nat → Int) (m : Int),
      (scanSel cw l m none).2 = none →
      ∀ b ∈ l, cw b.id + effWeight b.weight ≤ m := by
  induction l with
  | nil => intro cw m _ b hb; simp at hb
  | cons b rest ih =>
    intro cw m hnone c hc
    rw [scanSel] at hnone
    by_cases hv : cw b.id + effWeight b.weight > m
    · rw [if_pos hv] at hnone
      exact absurd hnone (scanSel_some_stays rest _ _ _)
    · rw [if_neg hv] at hnone
      rcases List.mem_cons.1 hc with rfl | hcr
      · exact not_lt.1 hv
      · exact ih cw m hnone c hcr

theorem effWeight_ge_one (w : Int) : 1 ≤ effWeight w := by
  rw [effWeight]; split <;> omega

theorem list_sum_fin (bs : List Backend) (f : Backend → Int) :
    (bs.map f).sum = ∑ i : Fin bs.length, f (bs.get i) := by
  conv_lhs => rw [← List.ofFn_get bs]
  rw [List.map_ofFn, List.sum_ofFn]
  rfl

theorem totalEffWeight_ge (bs : List Backend) :
    (bs.length : Int) ≤ totalEffWeight bs := by
  rw [totalEffWeight, list_sum_fin]
  have h1 : (bs.length : Int) = ∑ _i : Fin bs.length, (1 : Int) := by
    simp
  rw [h1]
  exact Finset.sum_le_sum fun i _ => effWeight_ge_one _

theorem get_id_inj (bs : List Backend) (hnd : (bs.map Backend.id).Nodup)
    (i j : Fin bs.length) (h : (bs.get i).id = (bs.get j).id) : i = j := by
  have hlen : (bs.map Backend.id).length = bs.length := List.length_map _ _
  have hi : ((bs.map Backend.id).get ⟨i.1, by rw [hlen]; exact i.2⟩) = (bs.get i).id := by
    simp [List.get_eq_getElem, List.getElem_map]
  have hj : ((bs.map Backend.id).get ⟨j.1, by rw [hlen]; exact j.2⟩) = (bs.get j).id := by
    simp [List.get_eq_getElem, List.getElem_map]
  have key := (List.Nodup.get_inj_iff hnd).1 (hi.trans (h.trans hj.symm))
  have hval := congrArg Fin.val key
  exact @Fin.ext _ i j hval

/-- One step of the weighted algorithm on a fixed all-alive candidate
list with distinct identities, from any current-weight map in which some
candidate's incremented weight exceeds the initial `maxWeight` of `-1`:
a candidate attaining the maximum incremented weight is returned, its
current weight is decreased by `totalWeight`, every other candidate's is
increased by its effective weight, and keys that are no candidate's
identity are untouched. -/
theorem wrrStep (bs : List Backend) (cw : Nat → Int)
    (hnd : (bs.map Backend.id).Nodup)
    (halive : ∀ b ∈ bs, b.alive = true)
    (hex : ∃ b ∈ bs, cw b.id + effWeight b.weight > -1) :
    ∃ j : Fin bs.length,
      (wrrNextBackend cw bs).1 = some (bs.get j) ∧
      (∀ i : Fin bs.length,
        cw (bs.get i).id + effWeight (bs.get i).weight ≤
          cw (bs.get j).id + effWeight (bs.get j).weight) ∧
      (∀ i : Fin bs.length,
        (wrrNextBackend cw bs).2 (bs.get i).id =
          cw (bs.get i).id + effWeight (bs.get i).weight -
          (if i = j then totalEffWeight bs else 0)) ∧
      (∀ x : Nat, (∀ b ∈ bs, b.id ≠ x) → (wrrNextBackend cw bs).2 x = cw x) := by
  have hfl : getAliveBackends bs = bs :=
    List.filter_eq_self.2 fun b hb => by
      simpa [Backend.isAlive] using halive b hb
  have hne : bs ≠ [] := by
    rcases hex with ⟨b, hb, _⟩
    exact List.ne_nil_of_mem hb
  have hempty : ¬bs.isEmpty = true := by
    simpa [List.isEmpty_iff] using hne
  have hscan := wrrLoop_scan bs cw 0 (-1) none hnd
  have hselb : ∃ b ∈ bs, (scanSel cw bs (-1) none).2 = some b ∧
      (scanSel cw bs (-1) none).1 = cw b.id + effWeight b.weight := by
    rcases scanSel_mem bs cw (-1) none with ⟨hm, hs⟩ | h
    · exfalso
      rcases hex with ⟨b, hb, hgt⟩
      exact absurd (scanSel_none bs cw (-1) hs b hb) (by omega)
    · exact h
  obtain ⟨b, hb, hsel, hmax⟩ := hselb
  obtain ⟨j, hj⟩ := List.mem_iff_get.1 hb
  have hsel2 : (wrrLoop bs cw 0 (-1) none).2.2.2 = some b :=
    (congrArg Prod.snd hscan).trans hsel
  have hmax2 : (wrrLoop bs cw 0 (-1) none).2.2.1 = cw b.id + effWeight b.weight :=
    (congrArg Prod.fst hscan).trans hmax
  have hchar : (wrrNextBackend cw bs).1 = some b ∧
      (wrrNextBackend cw bs).2 = fun id =>
        if id = b.id then
          (wrrLoop bs cw 0 (-1) none).1 b.id - (wrrLoop bs cw 0 (-1) none).2.1
        else (wrrLoop bs cw 0 (-1) none).1 id := by
    rw [wrrNextBackend, hfl]
    simp only []
    rw [if_neg hempty, hsel2]
    exact ⟨rfl, rfl⟩
  refine ⟨j, hj ▸ hchar.1, fun i => ?_, fun i => ?_, fun x hx => ?_⟩
  · rw [hj, ← hmax]
    exact (scanSel_bound bs cw (-1) none).2 (bs.get i) (List.get_mem bs i.1 i.2)
  · rw [hchar.2]
    by_cases hij : i = j
    · subst hij
      rw [hj]
      simp only [if_pos rfl]
      rw [wrrLoop_cw_mem bs cw 0 (-1) none hnd b hb, wrrLoop_total bs cw 0 (-1) none]
      simp only [if_true]
      omega
    · have hid : (bs.get i).id ≠ b.id := by
        intro hidb
        exact hij (get_id_inj bs hnd i j (by rw [hidb, hj]))
      simp only [if_neg hid, if_neg hij]
      rw [wrrLoop_cw_mem bs cw 0 (-1) none hnd (bs.get i) (List.get_mem bs i.1 i.2)]
      omega
  · rw [hchar.2]
    have hxb : x ≠ b.id := fun hxe => hx b hb hxe.symm
    simp only [if_neg hxb]
    exact wrrLoop_cw_off bs cw 0 (-1) none x hx

theorem wrrPickCount_succ (bs : List Backend) (b : Backend) (m : Nat) :
    wrrPickCount bs b (m + 1) =
      wrrPickCount bs b m + if wrrPick bs m = some b then 1 else 0 := by
  rw [wrrPickCount, wrrPickCount, Finset.range_succ, Finset.filter_insert]
  split
  · rw [Finset.card_insert_of_not_mem (by simp)]
  · rfl

/-- The running invariant of the weighted algorithm over a fixed
all-alive candidate list with distinct identities, starting from the
all-zero current-weight map: after `m` picks, (a) keys that are no
candidate's identity still map to 0, (b) candidate `i`'s current weight
is `m·wᵢ − W·cᵢ(m)` where `cᵢ(m)` counts its selections, (c) every
current weight is strictly above `−W`, and (d) the current weights sum
to 0. -/
theorem wrrInvariant (bs : List Backend)
    (hnd : (bs.map Backend.id).Nodup)
    (halive : ∀ b ∈ bs, b.alive = true)
    (hne : bs ≠ []) :
    ∀ m : Nat,
      (∀ x : Nat, (∀ b ∈ bs, b.id ≠ x) → wrrStates bs m x = 0) ∧
      (∀ i : Fin bs.length,
        wrrStates bs m (bs.get i).id =
          (m : Int) * effWeight (bs.get i).weight -
          totalEffWeight bs * (wrrPickCount bs (bs.get i) m : Int)) ∧
      (∀ i : Fin bs.length,
        wrrStates bs m (bs.get i).id > -totalEffWeight bs) ∧
      (∑ i : Fin bs.length, wrrStates bs m (bs.get i).id = 0) := by
  have hnpos : 0 < bs.length := List.length_pos.2 hne
  have hWn : (bs.length : Int) ≤ totalEffWeight bs := totalEffWeight_ge bs
  have hW1 : 1 ≤ totalEffWeight bs := le_trans (by exact_mod_cast hnpos) hWn
  intro m
  induction m with
  | zero =>
    refine ⟨fun x _ => rfl, fun i => ?_, fun i => ?_, by simp [wrrStates]⟩
    · simp [wrrStates, wrrPickCount]
    · simp only [wrrStates]
      omega
  | succ m ih =>
    obtain ⟨ih1, ih2, ih3, ih4⟩ := ih
    have hvsum : ∑ i : Fin bs.length,
        (wrrStates bs m (bs.get i).id + effWeight (bs.get i).weight) =
        totalEffWeight bs := by
      rw [Finset.sum_add_distrib, ih4, totalEffWeight, list_sum_fin]
      ring
    have hex : ∃ b ∈ bs, wrrStates bs m b.id + effWeight b.weight > -1 := by
      by_contra hno
      push_neg at hno
      have hle : ∑ i : Fin bs.length,
          (wrrStates bs m (bs.get i).id + effWeight (bs.get i).weight) ≤
          ∑ _i : Fin bs.length, (-1 : Int) :=
        Finset.sum_le_sum fun i _ => hno (bs.get i) (List.get_mem bs i.1 i.2)
      rw [hvsum] at hle
      simp only [Finset.sum_const, Finset.card_univ, Fintype.card_fin,
        nsmul_eq_mul, mul_neg, mul_one] at hle
      omega
    obtain ⟨j, hpick, hmaxj, hstate, hoff⟩ :=
      wrrStep bs (wrrStates bs m) hnd halive hex
    have hpick' : wrrPick bs m = some (bs.get j) := hpick
    have hsucc : wrrStates bs (m + 1) = (wrrNextBackend (wrrStates bs m) bs).2 := rfl
    have hvj : 1 ≤ wrrStates bs m (bs.get j).id + effWeight (bs.get j).weight := by
      have hsb : ∑ i : Fin bs.length,
          (wrrStates bs m (bs.get i).id + effWeight (bs.get i).weight) ≤
          ∑ _i : Fin bs.length,
            (wrrStates bs m (bs.get j).id + effWeight (bs.get j).weight) :=
        Finset.sum_le_sum fun i _ => hmaxj i
      rw [hvsum] at hsb
      simp only [Finset.sum_const, Finset.card_univ, Fintype.card_fin,
        nsmul_eq_mul] at hsb
      by_contra hlt
      push_neg at hlt
      have hz : wrrStates bs m (bs.get j).id + effWeight (bs.get j).weight ≤ 0 := by
        omega
      have hn0 : (0 : Int) ≤ (bs.length : Int) := by positivity
      have hmul := mul_le_mul_of_nonneg_left hz hn0
      rw [mul_zero] at hmul
      linarith
    refine ⟨fun x hx => ?_, fun i => ?_, fun i => ?_, ?_⟩
    · rw [hsucc, hoff x hx]
      exact ih1 x hx
    · rw [hsucc, hstate i, wrrPickCount_succ, hpick']
      by_cases hij : i = j
      · subst hij
        rw [if_pos rfl, if_pos rfl, ih2 i]
        push_cast
        ring
      · have hne2 : some (bs.get j) ≠ some (bs.get i) := by
          intro hsome
          exact hij (get_id_inj bs hnd i j
            (congrArg Backend.id (Option.some_inj.1 hsome)).symm)
        rw [if_neg hne2, if_neg hij, ih2 i]
        push_cast
        ring
    · rw [hsucc, hstate i]
      by_cases hij : i = j
      · subst hij
        rw [if_pos rfl]
        omega
      · rw [if_neg hij]
        have := ih3 i
        have := effWeight_ge_one (bs.get i).weight
        omega
    · have hrw : ∀ i : Fin bs.length,
          wrrStates bs (m + 1) (bs.get i).id =
            (wrrStates bs m (bs.get i).id + effWeight (bs.get i).weight) -
            (if i = j then totalEffWeight bs else 0) := by
        intro i
        rw [hsucc, hstate i]
      rw [Finset.sum_congr rfl fun i _ => hrw i, Finset.sum_sub_distrib, hvsum,
        Finset.sum_ite_eq' Finset.univ j fun _ => totalEffWeight bs]
      simp

/-- Every call of the weighted algorithm in the iteration selects some
candidate. -/
theorem wrrPick_exists (bs : List Backend)
    (hnd : (bs.map Backend.id).Nodup)
    (halive : ∀ b ∈ bs, b.alive = true)
    (hne : bs ≠ []) (m : Nat) :
    ∃ j : Fin bs.length, wrrPick bs m = some (bs.get j) := by
  obtain ⟨ih1, ih2, ih3, ih4⟩ := wrrInvariant bs hnd halive hne m
  have hnpos : 0 < bs.length := List.length_pos.2 hne
  have hWn : (bs.length : Int) ≤ totalEffWeight bs := totalEffWeight_ge bs
  have hvsum : ∑ i : Fin bs.length,
      (wrrStates bs m (bs.get i).id + effWeight (bs.get i).weight) =
      totalEffWeight bs := by
    rw [Finset.sum_add_distrib, ih4, totalEffWeight, list_sum_fin]
    ring
  have hex : ∃ b ∈ bs, wrrStates bs m b.id + effWeight b.weight > -1 := by
    by_contra hno
    push_neg at hno
    have hle : ∑ i : Fin bs.length,
        (wrrStates bs m (bs.get i).id + effWeight (bs.get i).weight) ≤
        ∑ _i : Fin bs.length, (-1 : Int) :=
      Finset.sum_le_sum fun i _ => hno (bs.get i) (List.get_mem bs i.1 i.2)
    rw [hvsum] at hle
    simp only [Finset.sum_const, Finset.card_univ, Fintype.card_fin,
      nsmul_eq_mul, mul_neg, mul_one] at hle
    omega
  obtain ⟨j, hpick, _, _, _⟩ := wrrStep bs (wrrStates bs m) hnd halive hex
  exact ⟨j, hpick⟩

theorem wrrCountSum (bs : List Backend)
    (hnd : (bs.map Backend.id).Nodup)
    (halive : ∀ b ∈ bs, b.alive = true)
    (hne : bs ≠ []) :
    ∀ m : Nat,
      ∑ i : Fin bs.length, (wrrPickCount bs (bs.get i) m : Int) = m := by
  intro m
  induction m with
  | zero => simp [wrrPickCount]
  | succ m ih =>
    obtain ⟨j, hpick⟩ := wrrPick_exists bs hnd halive hne m
    have hrw : ∀ i : Fin bs.length,
        (wrrPickCount bs (bs.get i) (m + 1) : Int) =
          (wrrPickCount bs (bs.get i) m : Int) +
          (if i = j then (1 : Int) else 0) := by
      intro i
      rw [wrrPickCount_succ, hpick]
      by_cases hij : i = j
      · subst hij
        rw [if_pos rfl, if_pos rfl]
        push_cast
        ring
      · have hne2 : some (bs.get j) ≠ some (bs.get i) := by
          intro hsome
          exact hij (get_id_inj bs hnd i j
            (congrArg Backend.id (Option.some_inj.1 hsome)).symm)
        rw [if_neg hne2, if_neg hij]
        push_cast
        ring
    rw [Finset.sum_congr rfl fun i _ => hrw i, Finset.sum_add_distrib, ih,
      Finset.sum_ite_eq' Finset.univ j fun _ => (1 : Int)]
    simp

theorem wrrCountBase (bs : List Backend)
    (hnd : (bs.map Backend.id).Nodup)
    (halive : ∀ b ∈ bs, b.alive = true)
    (hne : bs ≠ []) (i : Fin bs.length) :
    (wrrPickCount bs (bs.get i) (totalEffWeight bs).toNat : Int) =
      effWeight (bs.get i).weight := by
  have hnpos : 0 < bs.length := List.length_pos.2 hne
  have hWn : (bs.length : Int) ≤ totalEffWeight bs := totalEffWeight_ge bs
  have hW1 : 1 ≤ totalEffWeight bs := le_trans (by exact_mod_cast hnpos) hWn
  have hWc : (((totalEffWeight bs).toNat : Nat) : Int) = totalEffWeight bs :=
    Int.toNat_of_nonneg (by omega)
  obtain ⟨_, ih2, ih3, _⟩ := wrrInvariant bs hnd halive hne (totalEffWeight bs).toNat
  have hle : ∀ j ∈ Finset.univ,
      (wrrPickCount bs (bs.get j) (totalEffWeight bs).toNat : Int) ≤
        effWeight (bs.get j).weight := by
    intro j _
    have ha := ih2 j
    have hb := ih3 j
    rw [ha, hWc] at hb
    have hfac : 0 < effWeight (bs.get j).weight -
        (wrrPickCount bs (bs.get j) (totalEffWeight bs).toNat : Int) + 1 := by
      by_contra hnp
      push_neg at hnp
      have hmul := mul_le_mul_of_nonneg_left hnp (by omega :
        (0 : Int) ≤ totalEffWeight bs)
      rw [mul_zero] at hmul
      have hexpand : totalEffWeight bs *
          (effWeight (bs.get j).weight -
            (wrrPickCount bs (bs.get j) (totalEffWeight bs).toNat : Int) + 1) =
          totalEffWeight bs * effWeight (bs.get j).weight -
          totalEffWeight bs *
            (wrrPickCount bs (bs.get j) (totalEffWeight bs).toNat : Int) +
          totalEffWeight bs := by ring
      rw [hexpand] at hmul
      omega
    omega
  have hsums : ∑ j : Fin bs.length,
      (wrrPickCount bs (bs.get j) (totalEffWeight bs).toNat : Int) =
      ∑ j : Fin bs.length, effWeight (bs.get j).weight := by
    rw [wrrCountSum bs hnd halive hne (totalEffWeight bs).toNat, hWc]
    rw [totalEffWeight, list_sum_fin]
  exact (Finset.sum_eq_sum_iff_of_le hle).1 hsums i (Finset.mem_univ i)

theorem wrrStates_period_zero (bs : List Backend)
    (hnd : (bs.map Backend.id).Nodup)
    (halive : ∀ b ∈ bs, b.alive = true)
    (hne : bs ≠ []) :
    wrrStates bs (totalEffWeight bs).toNat = wrrStates bs 0 := by
  have hnpos : 0 < bs.length := List.length_pos.2 hne
  have hWn : (bs.length : Int) ≤ totalEffWeight bs := totalEffWeight_ge bs
  have hWc : (((totalEffWeight bs).toNat : Nat) : Int) = totalEffWeight bs :=
    Int.toNat_of_nonneg (by omega)
  obtain ⟨ih1, ih2, _, _⟩ := wrrInvariant bs hnd halive hne (totalEffWeight bs).toNat
  funext x
  by_cases hx : ∃ b ∈ bs, b.id = x
  · obtain ⟨b, hb, rfl⟩ := hx
    obtain ⟨i, hi⟩ := List.mem_iff_get.1 hb
    rw [← hi, ih2 i, wrrCountBase bs hnd halive hne i, hWc]
    show totalEffWeight bs * effWeight (bs.get i).weight -
        totalEffWeight bs * effWeight (bs.get i).weight = wrrStates bs 0 (bs.get i).id
    rw [wrrStates]
    ring
  · push_neg at hx
    rw [ih1 x hx]
    rfl

theorem wrrStates_periodic (bs : List Backend)
    (hnd : (bs.map Backend.id).Nodup)
    (halive : ∀ b ∈ bs, b.alive = true)
    (hne : bs ≠ []) (m : Nat) :
    wrrStates bs (m + (totalEffWeight bs).toNat) = wrrStates bs m := by
  induction m with
  | zero =>
    rw [Nat.zero_add]
    exact wrrStates_period_zero bs hnd halive hne
  | succ m ih =>
    have hm : m + 1 + (totalEffWeight bs).toNat =
        (m + (totalEffWeight bs).toNat) + 1 := by omega
    rw [hm]
    have h1 : wrrStates bs ((m + (totalEffWeight bs).toNat) + 1) =
        (wrrNextBackend (wrrStates bs (m + (totalEffWeight bs).toNat)) bs).2 := rfl
    have h2 : wrrStates bs (m + 1) =
        (wrrNextBackend (wrrStates bs m) bs).2 := rfl
    rw [h1, h2, ih]

theorem wrrPick_periodic (bs : List Backend)
    (hnd : (bs.map Backend.id).Nodup)
    (halive : ∀ b ∈ bs, b.alive = true)
    (hne : bs ≠ []) (m : Nat) :
    wrrPick bs (m + (totalEffWeight bs).toNat) = wrrPick bs m := by
  rw [wrrPick, wrrPick, wrrStates_periodic bs hnd halive hne]

theorem wrrPickCount_add_window (bs : List Backend)
    (hnd : (bs.map Backend.id).Nodup)
    (halive : ∀ b ∈ bs, b.alive = true)
    (hne : bs ≠ []) (b : Backend) :
    ∀ k : Nat, wrrPickCount bs b (k + (totalEffWeight bs).toNat) =
      wrrPickCount bs b k + wrrPickCount bs b (totalEffWeight bs).toNat := by
  intro k
  induction k with
  | zero => simp [wrrPickCount]
  | succ k ih =>
    have hm : k + 1 + (totalEffWeight bs).toNat =
        (k + (totalEffWeight bs).toNat) + 1 := by omega
    rw [hm, wrrPickCount_succ, ih, wrrPick_periodic bs hnd halive hne,
      wrrPickCount_succ]
    omega

theorem wrrWindowCount_split (bs : List Backend) (b : Backend) (k len : Nat) :
    wrrPickCount bs b k + wrrWindowCount bs b k len =
      wrrPickCount bs b (k + len) := by
  rw [wrrPickCount, wrrPickCount, wrrWindowCount, Finset.range_eq_Ico,
    ← Finset.Ico_union_Ico_eq_Ico (Nat.zero_le k) (Nat.le_add_right k len),
    Finset.filter_union,
    Finset.card_union_of_disjoint
      (Finset.disjoint_filter_filter (Finset.Ico_disjoint_Ico_consecutive 0 k (k + len)))]

/-- C4: over the weighted round-robin algorithm iterated on a fixed,
non-empty, all-alive candidate list with pairwise-distinct identities
(distinct Go `*Backend` pointers), starting from the freshly-created
algorithm, *every* window of exactly `W = Σ effective weights`
consecutive picks selects candidate `i` exactly `effWeight wᵢ` times
(the weight coerced to 1 when `≤ 0`). -/
theorem wrr_distribution (bs : List Backend)
    (hnd : (bs.map Backend.id).Nodup)
    (halive : ∀ b ∈ bs, b.alive = true)
    (hne : bs ≠ []) (k : Nat) (i : Fin bs.length) :
    (wrrWindowCount bs (bs.get i) k (totalEffWeight bs).toNat : Int) =
      effWeight (bs.get i).weight := by
  have h1 := wrrWindowCount_split bs (bs.get i) k (totalEffWeight bs).toNat
  have h2 := wrrPickCount_add_window bs hnd halive hne (bs.get i) k
  have h3 : wrrWindowCount bs (bs.get i) k (totalEffWeight bs).toNat =
      wrrPickCount bs (bs.get i) (totalEffWeight bs).toNat := by omega
  rw [h3]
  exact wrrCountBase bs hnd halive hne i

/-- A second healthy backend (id 1, weight 2) for the distribution
witness. -/
def secondBackend : Backend :=
  { id := 1, weight := 2, alive := true, connections := 0
    consecutiveErrors := 0, lastErrorTime := 0, circuitOpen := false
    maxConsecutiveErrors := 10, circuitTimeout := 30 }

/-- Witness for `wrr_distribution`: candidates `{id 0 / weight 1,
id 1 / weight 2}` (so `W = 3`), window starting at pick 5: the weight-2
backend is picked exactly twice in the window. -/
theorem wrr_distribution_witness :
    (wrrWindowCount [freshBackend, secondBackend]
      ([freshBackend, secondBackend].get ⟨1, by decide⟩) 5
      (totalEffWeight [freshBackend, secondBackend]).toNat : Int) =
      effWeight ([freshBackend, secondBackend].get ⟨1, by decide⟩).weight :=
  wrr_distribution [freshBackend, secondBackend] (by decide) (by decide)
    (by decide) 5 ⟨1, by decide⟩

/-! ## Retry bound and connection conservation of the request handler -/

theorem loadBalance_attempts (mr : Nat) (oracle : Nat → Outcome) (tm : Nat → Int)
    (retries : Nat) (p : Pool) :
    (loadBalance mr oracle tm retries p).attempts ≤ mr - retries + 1 := by
  induction retries, p using loadBalance.induct mr oracle tm with
  | case1 r p p' heq => rw [loadBalance]; simp [heq]
  | case2 r p peer p' heq code hor => rw [loadBalance]; simp [heq, hor]
  | case3 r p peer p' heq p1 hor p2 hlt ih =>
    rw [loadBalance]
    simp only [heq, hor, dif_pos hlt]
    have ih' : (loadBalance mr oracle tm (r + 1)
        { backends := updatePool (updatePool p'.backends peer.id Backend.addConnection)
            peer.id (Backend.recordError (tm r)),
          algorithm := p'.algorithm }).attempts ≤ mr - (r + 1) + 1 := ih
    omega
  | case4 r p peer p' heq hor hge =>
    rw [loadBalance]; simp [heq, hor, hge]

/-- C5: a single inbound request (entered at retry depth 0) performs at
most `max_retries + 1` transport attempts; the handler/error-handler
recursion is well-founded because each re-entry bumps the context retry
depth and no retry happens once the depth reaches `max_retries`. -/
theorem retry_bound (mr : Nat) (oracle : Nat → Outcome) (tm : Nat → Int)
    (p : Pool) :
    (loadBalance mr oracle tm 0 p).attempts ≤ mr + 1 := by
  simpa using loadBalance_attempts mr oracle tm 0 p

/-- The observable used for connection accounting: each backend's
identity paired with its connection counter, in pool order. -/
def idconnMap (bs : List Backend) : List (Nat × Int) :=
  bs.map fun b => (b.id, b.connections)

/-- The signed per-identity running total of a connection event trace
(`+1` for `AddConnection`, `-1` for `RemoveConnection`). -/
def traceDelta (i : Nat) (tr : List (Nat × Bool)) : Int :=
  (tr.map fun e => if e.1 = i then (if e.2 then (1 : Int) else -1) else 0).sum

theorem traceDelta_append (i : Nat) (t1 t2 : List (Nat × Bool)) :
    traceDelta i (t1 ++ t2) = traceDelta i t1 + traceDelta i t2 := by
  simp [traceDelta]

theorem traceDelta_wrap (i a : Nat) (inner : List (Nat × Bool))
    (h1 : traceDelta i inner = 0)
    (h2 : ∀ n, 0 ≤ traceDelta i (inner.take n)) :
    traceDelta i ((a, true) :: (inner ++ [(a, false)])) = 0 ∧
    ∀ n, 0 ≤ traceDelta i (((a, true) :: (inner ++ [(a, false)])).take n) := by
  have hsingle : ∀ v : Bool, traceDelta i [(a, v)] =
      if a = i then (if v then (1 : Int) else -1) else 0 := by
    intro v; simp [traceDelta]
  constructor
  · rw [show ((a, true) :: (inner ++ [(a, false)])) =
        [(a, true)] ++ inner ++ [(a, false)] by simp]
    rw [traceDelta_append, traceDelta_append, h1, hsingle, hsingle]
    by_cases hai : a = i <;> simp [hai]
  · intro n
    cases n with
    | zero => simp [traceDelta]
    | succ m =>
      rw [List.take_succ_cons,
        show ((a, true) :: (inner ++ [(a, false)]).take m) =
          [(a, true)] ++ (inner ++ [(a, false)]).take m by simp,
        traceDelta_append, hsingle]
      have hT : (0 : Int) ≤ if a = i then (if true then (1 : Int) else -1) else 0 := by
        by_cases hai : a = i <;> simp [hai]
      by_cases hm : m ≤ inner.length
      · rw [List.take_append_of_le_length hm]
        have := h2 m
        omega
      · rw [List.take_append_eq_append_take,
          List.take_of_length_le (by omega),
          List.take_of_length_le (by simp; omega)]
        rw [traceDelta_append, h1, hsingle]
        by_cases hai : a = i <;> simp [hai]

theorem updatePool_idconn_of_preserving (bs : List Backend) (i : Nat)
    (f : Backend → Backend)
    (hf : ∀ b : Backend, (f b).id = b.id ∧ (f b).connections = b.connections) :
    idconnMap (updatePool bs i f) = idconnMap bs := by
  simp only [idconnMap, updatePool, List.map_map]
  refine List.map_congr_left fun b _ => ?_
  by_cases hb : b.id = i <;> simp [hb, (hf b).1, (hf b).2]

theorem recordError_idconn (now : Int) (b : Backend) :
    ((b.recordError now).id = b.id ∧ (b.recordError now).connections = b.connections) := by
  simp [Backend.recordError]

theorem writeHeader_idconn (now c : Int) (b : Backend) :
    ((writeHeader now c b).id = b.id ∧
     (writeHeader now c b).connections = b.connections) := by
  rw [writeHeader]
  split
  · exact recordError_idconn now b
  · split
    · simp [Backend.recordSuccess]
    · split <;> simp

theorem isAvailable_snd_idconn (now : Int) (b : Backend) :
    (((b.isAvailable now).2).id = b.id ∧
     ((b.isAvailable now).2).connections = b.connections) := by
  rw [isAvailable_snd]
  split
  · rw [isCircuitOpen_snd]; split <;> simp
  · simp

theorem availableFilter_snd_idconn (now : Int) (bs : List Backend) :
    idconnMap (availableFilter now bs).2 = idconnMap bs := by
  induction bs with
  | nil => rfl
  | cons b rest ih =>
    simp only [idconnMap] at ih
    simp only [availableFilter, idconnMap, List.map_cons]
    rw [(isAvailable_snd_idconn now b).1, (isAvailable_snd_idconn now b).2, ih]

theorem nextAvailablePeer_snd_idconn (now : Int) (p : Pool) :
    idconnMap ((nextAvailablePeer now p).2).backends = idconnMap p.backends := by
  simp only [nextAvailablePeer]
  split <;> exact availableFilter_snd_idconn now p.backends

theorem updatePool_add_remove (i : Nat) (bs : List Backend) :
    ∀ bs' : List Backend,
      idconnMap bs' = idconnMap (updatePool bs i Backend.addConnection) →
      idconnMap (updatePool bs' i Backend.removeConnection) = idconnMap bs := by
  induction bs with
  | nil =>
    intro bs' h
    have hlen := congrArg List.length h
    simp only [idconnMap, updatePool, List.length_map, List.length_nil] at hlen
    cases bs' with
    | nil => rfl
    | cons x xs => simp at hlen
  | cons b rest ih =>
    intro bs' h
    cases bs' with
    | nil =>
      have hlen := congrArg List.length h
      simp only [idconnMap, updatePool, List.length_map, List.length_nil,
        List.length_cons] at hlen
      exact absurd hlen (by omega)
    | cons b2 rest2 =>
      simp only [idconnMap, updatePool, List.map_cons, List.cons.injEq,
        Prod.mk.injEq] at h ⊢
      obtain ⟨⟨hid, hconn⟩, htail⟩ := h
      refine ⟨?_, ?_⟩
      · by_cases hb : b.id = i
        · rw [if_pos hb] at hid hconn
          simp only [Backend.addConnection] at hid hconn
          rw [if_pos (hid.trans hb)]
          simp only [Backend.removeConnection]
          exact ⟨hid, by omega⟩
        · rw [if_neg hb] at hid hconn
          rw [if_neg (by rw [hid]; exact hb)]
          exact ⟨hid, hconn⟩
      · have := ih rest2 (by simpa [idconnMap, updatePool, Function.comp] using htail)
        simpa [idconnMap, updatePool, Function.comp] using this

theorem loadBalance_conservation (mr : Nat) (oracle : Nat → Outcome)
    (tm : Nat → Int) (retries : Nat) (p : Pool) :
    idconnMap (loadBalance mr oracle tm retries p).pool.backends =
      idconnMap p.backends := by
  induction retries, p using loadBalance.induct mr oracle tm with
  | case1 r p p' heq =>
    rw [loadBalance]
    simp only [heq]
    have := nextAvailablePeer_snd_idconn (tm r) p
    rw [heq] at this
    exact this
  | case2 r p peer p' heq code hor =>
    rw [loadBalance]
    simp only [heq, hor]
    have hp' : idconnMap p'.backends = idconnMap p.backends := by
      have := nextAvailablePeer_snd_idconn (tm r) p
      rw [heq] at this
      exact this
    rw [updatePool_add_remove peer.id p'.backends _
      (updatePool_idconn_of_preserving _ _ _ (writeHeader_idconn (tm r) code)),
      hp']
  | case3 r p peer p' heq p1 hor p2 hlt ih =>
    rw [loadBalance]
    simp only [heq, hor, dif_pos hlt]
    have hp' : idconnMap p'.backends = idconnMap p.backends := by
      have := nextAvailablePeer_snd_idconn (tm r) p
      rw [heq] at this
      exact this
    have ih' : idconnMap (loadBalance mr oracle tm (r + 1)
        { backends := updatePool (updatePool p'.backends peer.id Backend.addConnection)
            peer.id (Backend.recordError (tm r)),
          algorithm := p'.algorithm }).pool.backends =
        idconnMap (updatePool (updatePool p'.backends peer.id Backend.addConnection)
          peer.id (Backend.recordError (tm r))) := ih
    rw [updatePool_add_remove peer.id p'.backends _
      (ih'.trans (updatePool_idconn_of_preserving _ _ _ (recordError_idconn (tm r)))),
      hp']
  | case4 r p peer p' heq hor hge =>
    rw [loadBalance]
    simp only [heq, hor, dif_neg hge]
    have hp' : idconnMap p'.backends = idconnMap p.backends := by
      have := nextAvailablePeer_snd_idconn (tm r) p
      rw [heq] at this
      exact this
    rw [updatePool_add_remove peer.id p'.backends _
      (updatePool_idconn_of_preserving _ _ _ (recordError_idconn (tm r))),
      hp']

theorem loadBalance_trace (mr : Nat) (oracle : Nat → Outcome) (tm : Nat → Int)
    (retries : Nat) (p : Pool) (i : Nat) :
    traceDelta i (loadBalance mr oracle tm retries p).trace = 0 ∧
    ∀ n, 0 ≤ traceDelta i ((loadBalance mr oracle tm retries p).trace.take n) := by
  induction retries, p using loadBalance.induct mr oracle tm with
  | case1 r p p' heq =>
    rw [loadBalance]
    simp only [heq]
    exact ⟨rfl, fun n => by simp [traceDelta]⟩
  | case2 r p peer p' heq code hor =>
    rw [loadBalance]
    simp only [heq, hor]
    have := traceDelta_wrap i peer.id [] rfl (fun n => by simp [traceDelta])
    simpa using this
  | case3 r p peer p' heq p1 hor p2 hlt ih =>
    rw [loadBalance]
    simp only [heq, hor, dif_pos hlt]
    have ih' : traceDelta i (loadBalance mr oracle tm (r + 1)
        { backends := updatePool (updatePool p'.backends peer.id Backend.addConnection)
            peer.id (Backend.recordError (tm r)),
          algorithm := p'.algorithm }).trace = 0 ∧
        ∀ n, 0 ≤ traceDelta i ((loadBalance mr oracle tm (r + 1)
        { backends := updatePool (updatePool p'.backends peer.id Backend.addConnection)
            peer.id (Backend.recordError (tm r)),
          algorithm := p'.algorithm }).trace.take n) := ih
    exact traceDelta_wrap i peer.id _ ih'.1 ih'.2
  | case4 r p peer p' heq hor hge =>
    rw [loadBalance]
    simp only [heq, hor, dif_neg hge]
    have := traceDelta_wrap i peer.id [] rfl (fun n => by simp [traceDelta])
    simpa using this

/-- C6: on every exit path of the request handler each `AddConnection`
is paired with exactly one `RemoveConnection`: the per-identity
connection counters of the pool after a full `loadBalance` run equal
those before it, every prefix of the connection-event trace has a
non-negative per-identity running total (the counter never drops below
its start), the full trace sums to zero, and consequently a pool whose
counters are all 0 at the start is all 0 at quiescence. -/
theorem connection_conservation (mr : Nat) (oracle : Nat → Outcome)
    (tm : Nat → Int) (p : Pool) (i : Nat) (n : Nat) :
    idconnMap (loadBalance mr oracle tm 0 p).pool.backends =
      idconnMap p.backends ∧
    traceDelta i (loadBalance mr oracle tm 0 p).trace = 0 ∧
    0 ≤ traceDelta i ((loadBalance mr oracle tm 0 p).trace.take n) ∧
    ((∀ b ∈ p.backends, b.connections = 0) →
      ∀ b ∈ (loadBalance mr oracle tm 0 p).pool.backends, b.connections = 0) := by
  have htr := loadBalance_trace mr oracle tm 0 p i
  refine ⟨loadBalance_conservation mr oracle tm 0 p, htr.1, htr.2 n, fun h0 b hb => ?_⟩
  have hmap := loadBalance_conservation mr oracle tm 0 p
  have : (b.id, b.connections) ∈ idconnMap p.backends := by
    rw [← hmap]
    exact List.mem_map_of_mem _ hb
  simp only [idconnMap, List.mem_map] at this
  obtain ⟨b0, hb0, hpair⟩ := this
  have := h0 b0 hb0
  have hconn : b.connections = b0.connections := (Prod.mk.injEq _ _ _ _ ▸ hpair).2.symm
  omega

/-- Witness for `connection_conservation`: one retry budget, a transport
error on every attempt, a pool of one fresh backend; at quiescence the
counter is back at 0. -/
theorem connection_conservation_witness :
    ∀ b ∈ (loadBalance 1 (fun _ => Outcome.transportError) (fun _ => 0) 0
      { backends := [freshBackend], algorithm := Algorithm.leastConnections }).pool.backends,
      b.connections = 0 :=
  (connection_conservation 1 (fun _ => Outcome.transportError) (fun _ => 0)
    { backends := [freshBackend], algorithm := Algorithm.leastConnections } 0 0).2.2.2
    (by decide)

/-- Witness for `healthPercentage_divisor`: the one-element pool
`[freshBackend]` at instant 0. -/
theorem healthPercentage_divisor_witness :
    getStatsAvailableCount 0 [freshBackend] ≤ 1 ∧
    (1 : ℚ) ≠ 0 ∧
    poolHealthPercentage 0 [freshBackend] * (1 : ℚ) =
      (getStatsAvailableCount 0 [freshBackend] : ℚ) * 100 := by
  have h := healthPercentage_divisor 0 [freshBackend]
  have h2 := h.2.1 (by simp)
  exact ⟨by simpa using h.1, by norm_num, by simpa using h2.2.1⟩

end LB
